import Mathlib

/-!
Verification development for the ogcutils repository (src/index.js).

The temporal-dimension resolver and the capability-tree flattener of
src/index.js are embedded shallowly below.  JavaScript machine values are
modelled as follows:

* a JS Date object is a pair of an allocation identifier and a time value;
  the time value is an integer count of milliseconds since the Unix epoch,
  or none for an Invalid Date (time value NaN).  Allocation identifiers are
  threaded through every function that constructs Date objects, so that the
  reference-equality semantics of Array.prototype.includes on objects is
  captured faithfully instead of being assumed.
* Date.parse is modelled on the ISO 8601 profile of the ECMAScript Date Time
  String Format restricted to the forms YYYY-MM-DD, YYYY-MM-DDTHH:MM:SSZ and
  YYYY-MM-DDTHH:MM:SS.sssZ; other profiles (local-time forms without offset,
  numeric offsets, extended years) are outside the model and count as
  unparsable.
* moment arithmetic is modelled in UTC: adding or subtracting days, hours,
  minutes and seconds is fixed-duration arithmetic; subtracting years or
  months is calendar arithmetic that keeps the day-of-month, clamping it to
  the length of the target month, exactly as moment does.
* Array.prototype.sort is required by ECMAScript to be a stable sort; with
  the comparator (a, b) => a.getTime() - b.getTime() a NaN comparator result
  is coerced to +0 by SortCompare.  The model uses a stable insertion sort
  with the strict order induced by that comparator.
-/

/-! ## The period grammar (PERIODICITY_PATTERN, src/index.js line 23)

The source matches against the anchored, case-insensitive regular expression
P((d+)Y)?((d+)M)?((d+)D)?(T((d+)H)?((d+)M)?((d+)S)?)? where d+ stands for a
nonempty digit run.  Each optional group consumes a maximal digit run that
must be immediately followed by its unit letter; since a digit run cannot be
shortened to expose a unit letter, the greedy left-to-right parser below
recognises exactly the language of the regular expression, and its captured
groups coincide with the regular expression groups used by the source. -/

/-- The digit-string value of a regular-expression capture group: absent, or a
nonempty run of decimal digits. -/
abbrev PGroup := Option (List Char)

/-- The six capture groups of PERIODICITY_PATTERN that the source reads
(group indices 2, 4, 6, 9, 11, 13). -/
structure PGroups where
  years : PGroup
  months : PGroup
  days : PGroup
  hours : PGroup
  minutes : PGroup
  seconds : PGroup
deriving DecidableEq

/-- Try to consume one optional group (d+)L of the period pattern, where L is
matched case-insensitively.  On failure the input is left unchanged. -/
def tryGroup (up lo : Char) (cs : List Char) : PGroup × List Char :=
  let ds := cs.takeWhile (·.isDigit)
  let rest := cs.dropWhile (·.isDigit)
  match ds, rest with
  | [], _ => (none, cs)
  | _, r :: rs => if r = up ∨ r = lo then (some ds, rs) else (none, cs)
  | _, [] => (none, cs)

/-- Matching a candidate period string against PERIODICITY_PATTERN: the
captured groups on success, none when the string does not match. -/
def periodMatch (cs : List Char) : Option PGroups :=
  match cs with
  | [] => none
  | p :: rest =>
    if p = 'P' ∨ p = 'p' then
      let (y, r1) := tryGroup 'Y' 'y' rest
      let (mo, r2) := tryGroup 'M' 'm' r1
      let (d, r3) := tryGroup 'D' 'd' r2
      match r3 with
      | [] => some ⟨y, mo, d, none, none, none⟩
      | t :: r4 =>
        if t = 'T' ∨ t = 't' then
          let (h, r5) := tryGroup 'H' 'h' r4
          let (mi, r6) := tryGroup 'M' 'm' r5
          let (s, r7) := tryGroup 'S' 's' r6
          if r7 = [] then some ⟨y, mo, d, h, mi, s⟩ else none
        else none
    else none

/-- The numeric value of a digit string, as computed by parseInt on a
nonempty decimal-digit string. -/
def digitsToNat (ds : List Char) : Nat :=
  ds.foldl (fun acc c => 10 * acc + (c.toNat - 48)) 0

/-- The delta object built by getPeriodTimedelta: one non-negative integer
per calendar component. -/
structure Delta where
  years : Nat
  months : Nat
  days : Nat
  hours : Nat
  minutes : Nat
  seconds : Nat
deriving DecidableEq

/-- The all-zero delta. -/
def Delta.zero : Delta := ⟨0, 0, 0, 0, 0, 0⟩

/-- The delta object assembled from the capture groups (src/index.js lines
117-143): a present group contributes its parseInt value, an absent group
contributes 0. -/
def deltaOfGroups (g : PGroups) : Delta where
  years := (g.years.map digitsToNat).getD 0
  months := (g.months.map digitsToNat).getD 0
  days := (g.days.map digitsToNat).getD 0
  hours := (g.hours.map digitsToNat).getD 0
  minutes := (g.minutes.map digitsToNat).getD 0
  seconds := (g.seconds.map digitsToNat).getD 0

/-- The nonZeroTotalPeriod flag of getPeriodTimedelta: some component of the
assembled delta is positive. -/
def isNonZeroDelta (d : Delta) : Bool :=
  decide (0 < d.years) || decide (0 < d.months) || decide (0 < d.days) ||
  decide (0 < d.hours) || decide (0 < d.minutes) || decide (0 < d.seconds)

/-- getPeriodTimedelta (src/index.js lines 109-150): match the period string
against PERIODICITY_PATTERN; on failure, or when every component of the
resulting delta is zero, return the explicit invalid marker null (modelled as
none); otherwise return the delta. -/
def getPeriodTimedelta (period : List Char) : Option Delta :=
  match periodMatch period with
  | none => none
  | some g =>
    let delta := deltaOfGroups g
    if isNonZeroDelta delta then some delta else none

/-! ## Calendar arithmetic (proleptic Gregorian, UTC) -/

/-- Gregorian leap-year test. -/
def isLeap (y : Int) : Bool :=
  y.emod 4 = 0 && (y.emod 100 ≠ 0 || y.emod 400 = 0)

/-- Number of days in a month of a given year. -/
def daysInMonth (y m : Int) : Int :=
  if m = 2 then (if isLeap y then 29 else 28)
  else if m = 4 ∨ m = 6 ∨ m = 9 ∨ m = 11 then 30
  else 31

/-- Days since 1970-01-01 of a civil date (proleptic Gregorian calendar).
For a positive divisor, Int.ediv is floor division, as this algorithm
requires. -/
def daysFromCivil (y m d : Int) : Int :=
  let y1 := if m ≤ 2 then y - 1 else y
  let era := y1.ediv 400
  let yoe := y1 - era * 400
  let doy := (153 * (if 2 < m then m - 3 else m + 9) + 2).ediv 5 + d - 1
  let doe := yoe * 365 + yoe.ediv 4 - yoe.ediv 100 + doy
  era * 146097 + doe - 719468

/-- Civil date (year, month, day) of a count of days since 1970-01-01. -/
def civilFromDays (z0 : Int) : Int × Int × Int :=
  let z := z0 + 719468
  let era := z.ediv 146097
  let doe := z - era * 146097
  let yoe := (doe - doe.ediv 1460 + doe.ediv 36524 - doe.ediv 146096).ediv 365
  let y := yoe + era * 400
  let doy := doe - (365 * yoe + yoe.ediv 4 - yoe.ediv 100)
  let mp := (5 * doy + 2).ediv 153
  let d := doy - (153 * mp + 2).ediv 5 + 1
  let m := mp + (if mp < 10 then 3 else -9)
  (if m ≤ 2 then y + 1 else y, m, d)

/-- moment subtraction of n years from a time value (UTC): keep month and
day-of-month, clamping the day to the length of the target month.
Subtracting zero years is the identity, as in moment. -/
def subYearsMs (n : Nat) (ms : Int) : Int :=
  if n = 0 then ms else
    let days := ms.ediv 86400000
    let tod := ms.emod 86400000
    let (y, m, d) := civilFromDays days
    let d1 := min d (daysInMonth (y - n) m)
    daysFromCivil (y - n) m d1 * 86400000 + tod

/-- moment subtraction of n months from a time value (UTC): shift the month
index, clamping the day to the length of the target month.  Subtracting zero
months is the identity, as in moment. -/
def subMonthsMs (n : Nat) (ms : Int) : Int :=
  if n = 0 then ms else
    let days := ms.ediv 86400000
    let tod := ms.emod 86400000
    let (y, m, d) := civilFromDays days
    let total := y * 12 + (m - 1) - n
    let y1 := total.ediv 12
    let m1 := total.emod 12 + 1
    let d1 := min d (daysInMonth y1 m1)
    daysFromCivil y1 m1 d1 * 86400000 + tod

/-- subtractTimeDelta applied to a valid time value (src/index.js lines
77-84): the delta components are subtracted one key at a time in the
insertion order of the delta object built by getPeriodTimedelta, namely
years, months, days, hours, minutes, seconds.  Years and months are calendar
subtractions; the remaining components are fixed durations (UTC model). -/
def subtractDeltaMs (dl : Delta) (ms : Int) : Int :=
  let a := subYearsMs dl.years ms
  let b := subMonthsMs dl.months a
  let c := b - dl.days * 86400000
  let d := c - dl.hours * 3600000
  let e := d - dl.minutes * 60000
  e - dl.seconds * 1000

/-! ## JS dates -/

/-- A JS Date object: an allocation identifier (object identity) and a time
value; none stands for the NaN time value of an Invalid Date. -/
structure JSDate where
  id : Nat
  tv : Option Int
deriving DecidableEq

/-- Construct the time value of a date-time, validating the ranges that the
ECMAScript Date Time String Format enforces. -/
def mkUTC (y mo d h mi s ms : Nat) : Option Int :=
  if 1 ≤ mo ∧ mo ≤ 12 ∧ 1 ≤ d ∧ (d : Int) ≤ daysInMonth y mo ∧
      h ≤ 23 ∧ mi ≤ 59 ∧ s ≤ 59 then
    some (daysFromCivil y mo d * 86400000 +
      ((h * 3600000 + mi * 60000 + s * 1000 + ms : Nat) : Int))
  else none

/-- Numeric value of a decimal-digit character. -/
def digitVal (c : Char) : Nat := c.toNat - 48

/-- Date.parse on the modelled ISO 8601 profile (see the header comment):
the time value on success, none (NaN) otherwise. -/
def dateParse (cs : List Char) : Option Int :=
  match cs with
  | [a, b, c, d, '-', e, f, '-', g, h] =>
    if [a, b, c, d, e, f, g, h].all (·.isDigit) then
      mkUTC (1000 * digitVal a + 100 * digitVal b + 10 * digitVal c + digitVal d)
        (10 * digitVal e + digitVal f) (10 * digitVal g + digitVal h) 0 0 0 0
    else none
  | [a, b, c, d, '-', e, f, '-', g, h, 'T', i, j, ':', k, l, ':', m, n, 'Z'] =>
    if [a, b, c, d, e, f, g, h, i, j, k, l, m, n].all (·.isDigit) then
      mkUTC (1000 * digitVal a + 100 * digitVal b + 10 * digitVal c + digitVal d)
        (10 * digitVal e + digitVal f) (10 * digitVal g + digitVal h)
        (10 * digitVal i + digitVal j) (10 * digitVal k + digitVal l)
        (10 * digitVal m + digitVal n) 0
    else none
  | [a, b, c, d, '-', e, f, '-', g, h, 'T', i, j, ':', k, l, ':', m, n,
      '.', o, p, q, 'Z'] =>
    if [a, b, c, d, e, f, g, h, i, j, k, l, m, n, o, p, q].all (·.isDigit) then
      mkUTC (1000 * digitVal a + 100 * digitVal b + 10 * digitVal c + digitVal d)
        (10 * digitVal e + digitVal f) (10 * digitVal g + digitVal h)
        (10 * digitVal i + digitVal j) (10 * digitVal k + digitVal l)
        (10 * digitVal m + digitVal n)
        (100 * digitVal o + 10 * digitVal p + digitVal q)
    else none
  | _ => none

/-- The time value produced by toDate for a given wall-clock instant now:
the literal token current resolves to now, anything else goes through
Date.parse. -/
def jsTv (now : Int) (cs : List Char) : Option Int :=
  if cs = "current".data then some now else dateParse cs

/-- toDate (src/index.js lines 36-42): allocate a fresh Date object from an
ISO time string, or the current instant for the literal token current.  An
unparsable string yields an Invalid Date object (time value NaN); no
exception is raised. -/
def toDate (now : Int) (cs : List Char) (n : Nat) : JSDate × Nat :=
  (⟨n, jsTv now cs⟩, n + 1)

/-- subtractTimeDelta (src/index.js lines 77-84): allocate a fresh Date
object holding the delta-shifted time value; an Invalid Date stays invalid
through moment. -/
def subtractTimeDelta (t : JSDate) (dl : Delta) (n : Nat) : JSDate × Nat :=
  (⟨n, t.tv.map (subtractDeltaMs dl)⟩, n + 1)

/-- The comparison part1.getTime() <= part2.getTime(): false whenever either
time value is NaN. -/
def jsLe (a b : Option Int) : Bool :=
  match a, b with
  | some x, some y => decide (x ≤ y)
  | _, _ => false

/-- The comparison timestep.getTime() > start.getTime(): false whenever
either time value is NaN. -/
def jsGt (a b : Option Int) : Bool :=
  match a, b with
  | some x, some y => decide (y < x)
  | _, _ => false

/-! ## String splitting

The source splits on the one-character separators "," and "/".  JS
String.prototype.split with a one-character separator returns the (possibly
empty) chunks between occurrences of the separator; splitting the empty
string yields one empty chunk. -/

/-- JS String.prototype.split with a one-character separator. -/
def jsSplit (sep : Char) : List Char → List (List Char)
  | [] => [[]]
  | c :: cs =>
    if c = sep then [] :: jsSplit sep cs
    else
      match jsSplit sep cs with
      | [] => [[c]]
      | r :: rs => (c :: r) :: rs

/-! ## The backward walk of enumerateAvailableTimes

Both loops of src/index.js lines 205-218 are modelled with an explicit fuel
parameter bounding the number of iterations; each definition below returns
the accumulated values array and the next allocation identifier.  The
unlimited loop (limit == -1) runs while timestep.getTime() > start.getTime();
with a valid (nonzero) delta every iteration strictly decreases the time
value by at least one millisecond, so the fuel chosen at the call site,
one more than the number of milliseconds between start and end, never cuts
the loop short. -/

/-- The while loop of the limit == -1 branch (src/index.js lines 209-212). -/
def walkUnlimited (dl : Delta) (startTv : Option Int) (timestep : JSDate)
    (values : List JSDate) (n : Nat) : Nat → List JSDate × Nat
  | 0 => (values, n)
  | fuel + 1 =>
    if jsGt timestep.tv startTv then
      let (t1, n1) := subtractTimeDelta timestep dl n
      walkUnlimited dl startTv t1 (values ++ [t1]) n1 fuel
    else (values, n)

/-- The while loop of the limit >= 0 branch (src/index.js lines 214-217);
note that values.length counts every instant accumulated so far, the
endpoints and earlier list entries included. -/
def walkLimited (dl : Delta) (startTv : Option Int) (limit : Int)
    (timestep : JSDate) (values : List JSDate) (n : Nat) :
    Nat → List JSDate × Nat
  | 0 => (values, n)
  | fuel + 1 =>
    if (values.length : Int) < limit ∧ jsGt timestep.tv startTv then
      let (t1, n1) := subtractTimeDelta timestep dl n
      walkLimited dl startTv limit t1 (values ++ [t1]) n1 fuel
    else (values, n)

/-- Fuel for the unlimited walk: one more than the millisecond distance from
start to end; one iteration check suffices when either endpoint is invalid. -/
def fuelFor (startTv endTv : Option Int) : Nat :=
  match startTv, endTv with
  | some s, some e => (e - s).toNat + 1
  | _, _ => 1

/-- Fuel for the limited walk: each iteration grows values by one element,
so the loop runs at most limit minus the current length times. -/
def limFuel (limit : Int) (len : Nat) : Nat := (limit - len).toNat + 1

/-- Processing of one comma-separated definition by enumerateAvailableTimes
(the forEach body, src/index.js lines 181-225), threading the accumulated
values array and the allocation identifier.  A definition without a slash is
a single time stamp.  Otherwise the definition is split on slashes; the two
endpoint Date objects are ordered by time value (comparisons against a NaN
time value are false, so an Invalid Date among the endpoints leaves part2 as
start and part1 as end).  Array.prototype.includes compares Date objects by
reference (SameValueZero), modelled as equality of allocation identifiers;
the endpoint objects are freshly allocated, so both membership tests are
false whenever every object already in values has an older identifier.
A definition with fewer than three slash-separated parts would make
getPeriodTimedelta dereference undefined in the source; the model reads the
missing parts as empty strings and is only ever applied to three-part
interval entries in the theorems below. -/
def processDef (now : Int) (limit : Int) (acc : List JSDate × Nat)
    (definition : List Char) : List JSDate × Nat :=
  let (values, n) := acc
  if ¬ definition.contains '/' then
    let (d, n1) := toDate now definition n
    (values ++ [d], n1)
  else
    let parts := jsSplit '/' definition
    let (part1, n1) := toDate now (parts[0]?.getD []) n
    let (part2, n2) := toDate now (parts[1]?.getD []) n1
    let start := if jsLe part1.tv part2.tv then part1 else part2
    let stop := if jsLe part1.tv part2.tv then part2 else part1
    let period := parts[2]?.getD []
    let values1 := if values.contains stop then values else values ++ [stop]
    match getPeriodTimedelta period with
    | none =>
      let values2 := if values1.contains start then values1
        else values1 ++ [start]
      (values2, n2)
    | some delta =>
      let (values2, n3) :=
        if limit = -1 then
          walkUnlimited delta start.tv stop values1 n2 (fuelFor start.tv stop.tv)
        else
          walkLimited delta start.tv limit stop values1 n2
            (limFuel limit values1.length)
      let values3 := if values2.contains start then values2
        else values2 ++ [start]
      (values3, n3)

/-- The strict order induced by the sort comparator
(a, b) => a.getTime() - b.getTime(): a precedes b exactly when the comparator
is negative; a NaN comparator value is coerced to +0 by SortCompare, hence
never strict. -/
def dateLt (a b : JSDate) : Bool :=
  match a.tv, b.tv with
  | some x, some y => decide (x < y)
  | _, _ => false

/-- Stable insertion of a Date into an already sorted list: the new element
goes in front of the first element it does not strictly follow. -/
def jsSortInsert (x : JSDate) : List JSDate → List JSDate
  | [] => [x]
  | y :: ys => if dateLt y x then y :: jsSortInsert x ys else x :: y :: ys

/-- Stable sort modelling Array.prototype.sort with the time-value
comparator. -/
def jsSort : List JSDate → List JSDate
  | [] => []
  | x :: xs => jsSortInsert x (jsSort xs)

/-- enumerateAvailableTimes (src/index.js lines 178-232): split the WMS time
dimension text on commas, process each definition in order, and sort the
accumulated Date array by time value when sorted is true.  The wall-clock
instant now resolves the literal token current, and n is the next free
allocation identifier. -/
def enumerateAvailableTimes (now : Int) (text : List Char) (limit : Int)
    (sorted : Bool) (n : Nat) : List JSDate × Nat :=
  let r := (jsSplit ',' text).foldl (processDef now limit) ([], n)
  (if sorted then jsSort r.1 else r.1, r.2)

/-! ## The capability tree

The parsed capabilities document is an ad-hoc object tree; the embedding
records exactly the fields the source dereferences.  An absent field is
none; JS truthiness makes an absent object field falsy while any object,
array (even empty) and nonempty string is truthy. -/

/-- A WMS dimension element as exposed by the capabilities parser. -/
structure Dimension where
  name : String
  units : String
  default : Option String
  values : String
deriving DecidableEq

/-- One entry of a WMS layer BoundingBox list. -/
structure BBoxEntry where
  crs : Option String
  extent : Option (List Int)
deriving DecidableEq

/-- The HTTP Get binding of a DCPType entry. -/
structure GetSection where
  OnlineResource : Option String
deriving DecidableEq

/-- The HTTP transport binding of a DCPType entry. -/
structure HTTPSection where
  Get : Option GetSection
deriving DecidableEq

/-- One DCPType transport entry of the GetMap request section. -/
structure DCPTypeEntry where
  HTTP : Option HTTPSection
deriving DecidableEq

/-- The GetMap request section. -/
structure GetMapSection where
  DCPType : Option (List DCPTypeEntry)
deriving DecidableEq

/-- The Request section of a capability object. -/
structure RequestSection where
  GetMap : Option GetMapSection
deriving DecidableEq

mutual
/-- A node of the parsed capability tree: a possibly absent nested
capability object, a possibly absent sublayer field, and the leaf payload
fields the source reads. -/
inductive CapNode : Type where
  | mk (Capability : Option CapNode) (Layer : Option LayerField)
      (Name Title : Option String) (Dimension : Option (List Dimension))
      (BoundingBox : Option (List BBoxEntry))
      (Request : Option RequestSection) : CapNode
/-- The Layer field of a capability node: a single object or an array. -/
inductive LayerField : Type where
  | single : CapNode → LayerField
  | array : List CapNode → LayerField
end

/-- The Capability field of a node. -/
def CapNode.Capability : CapNode → Option CapNode
  | .mk c _ _ _ _ _ _ => c

/-- The Layer field of a node. -/
def CapNode.Layer : CapNode → Option LayerField
  | .mk _ l _ _ _ _ _ => l

/-- The Name field of a node. -/
def CapNode.Name : CapNode → Option String
  | .mk _ _ nm _ _ _ _ => nm

/-- The Title field of a node. -/
def CapNode.Title : CapNode → Option String
  | .mk _ _ _ t _ _ _ => t

/-- The Dimension field of a node. -/
def CapNode.Dimension : CapNode → Option (List Dimension)
  | .mk _ _ _ _ d _ _ => d

/-- The BoundingBox field of a node. -/
def CapNode.BoundingBox : CapNode → Option (List BBoxEntry)
  | .mk _ _ _ _ _ b _ => b

/-- The Request field of a node. -/
def CapNode.Request : CapNode → Option RequestSection
  | .mk _ _ _ _ _ _ r => r

mutual
/-- getAllLayers (src/index.js lines 269-290): recurse through a nested
capability, flatten a sublayer field (single object or array) in document
order, and return any other node as the single leaf. -/
def getAllLayers : CapNode → List CapNode
  | .mk (some cap) _ _ _ _ _ _ => getAllLayers cap
  | .mk none (some lf) _ _ _ _ _ => getAllLayersLF lf
  | n => [n]
/-- Flattening of a sublayer field by getAllLayers. -/
def getAllLayersLF : LayerField → List CapNode
  | .single l => getAllLayers l
  | .array ls => getAllLayersList ls
/-- The forEach concatenation of getAllLayers over an array of sublayers. -/
def getAllLayersList : List CapNode → List CapNode
  | [] => []
  | l :: ls => getAllLayers l ++ getAllLayersList ls
end

/-- getGetMapEndpointUrl (src/index.js lines 243-258): recurse through a
nested capability, then descend Request, GetMap, DCPType (which must be a
nonempty array), first entry, HTTP, Get, OnlineResource; an empty string
(falsy in JS) or any absent segment yields the empty string. -/
def getGetMapEndpointUrl : CapNode → String
  | .mk (some c) _ _ _ _ _ _ => getGetMapEndpointUrl c
  | .mk none _ _ _ _ _ r =>
    match r with
    | some ⟨some ⟨some (d0 :: _)⟩⟩ =>
      match d0 with
      | ⟨some ⟨some ⟨some url⟩⟩⟩ => if url = "" then "" else url
      | _ => ""
    | _ => ""

/-- The scan of getBoundingBoxLatLon over the BoundingBox list: the first
entry whose crs is exactly EPSG:4326 and whose extent is present wins. -/
def findBBox : List BBoxEntry → List Int
  | [] => [-180, -90, 180, 90]
  | b :: bs =>
    match b.crs, b.extent with
    | some c, some e => if c = "EPSG:4326" then e else findBBox bs
    | _, _ => findBBox bs

/-- getBoundingBoxLatLon (src/index.js lines 299-310): the extent of the
first EPSG:4326 bounding box, or the full-globe default. -/
def getBoundingBoxLatLon (l : CapNode) : List Int :=
  match l.BoundingBox with
  | some entries => findBBox entries
  | none => [-180, -90, 180, 90]

/-- LAYER_BLACKLIST (src/index.js line 22). -/
def LAYER_BLACKLIST : List String :=
  ["background", "foreground", "grid", "boundaries", "oceans", "bluemarble",
    "Natural_Earth_Map"]

/-- The Layer output record assembled by getAvailableLayers.  The source
object literal initialises time to null and leaves times absent; both are
modelled as none. -/
structure LayerRecord where
  name : Option String
  title : Option String
  getMapEndpointUrl : String
  time : Option JSDate
  times : Option (List JSDate)
  boundingBox : List Int
deriving DecidableEq

/-- The dimension forEach body of getAvailableLayers (src/index.js lines
342-353): every dimension literally named time is consulted in order; a
truthy (nonempty) default overwrites the default instant, and units equal to
ISO8601 overwrites the times axis with the enumerated values. -/
def processDim (now : Int) (acc : LayerRecord × Nat) (dim : Dimension) :
    LayerRecord × Nat :=
  let (layer, n) := acc
  if dim.name = "time" then
    let (layer1, n1) :=
      match dim.default with
      | some s =>
        if s = "" then (layer, n)
        else
          let (d, n2) := toDate now s.data n
          ({ layer with time := some d }, n2)
      | none => (layer, n)
    if dim.units = "ISO8601" then
      let (ts, n2) := enumerateAvailableTimes now dim.values.data 240 true n1
      ({ layer1 with times := some ts }, n2)
    else (layer1, n1)
  else (layer, n)

/-- The layer-record builder: the capability-processing part of
getAvailableLayers (src/index.js lines 323-358) applied to the already
fetched and parsed Capability object (fetching and XML parsing are external
collaborators).  Flatten the tree, compute the shared GetMap endpoint url,
and build one record per non-blacklisted leaf. -/
def buildLayerRecords (now : Int) (capability : CapNode) (n : Nat) :
    List LayerRecord × Nat :=
  let capalayers := getAllLayers capability
  let getMapUrl := getGetMapEndpointUrl capability
  capalayers.foldl
    (fun acc cl =>
      let (availableLayers, n) := acc
      let blacklisted :=
        match cl.Name with
        | some s => LAYER_BLACKLIST.contains s
        | none => false
      if blacklisted then (availableLayers, n)
      else
        let layer : LayerRecord :=
          { name := cl.Name, title := cl.Title,
            getMapEndpointUrl := getMapUrl, time := none, times := none,
            boundingBox := getBoundingBoxLatLon cl }
        let (layer1, n1) :=
          match cl.Dimension with
          | some dims => dims.foldl (processDim now) (layer, n)
          | none => (layer, n)
        (availableLayers ++ [layer1], n1))
    ([], n)

/-- A node that is neither a wrapper nor a branch: the leaves that the
flattener surfaces. -/
def isLeaf (t : CapNode) : Bool :=
  t.Capability.isNone && t.Layer.isNone

mutual
/-- Modelled from the spec: the flatten operation of section 4.2, written
from its three prioritised cases.  A wrapper (nested capability present) is
passed through, a branch (sublayer field present) has its sublayers
flattened in document order and concatenated, and any other node is a leaf
returned as a single-element result. -/
def specLeaves : CapNode → List CapNode
  | .mk (some cap) _ _ _ _ _ _ => specLeaves cap
  | .mk none (some lf) _ _ _ _ _ => specLeavesLF lf
  | n => [n]
/-- Modelled from the spec: flattening of a sublayer field, which may be a
single object or an ordered collection. -/
def specLeavesLF : LayerField → List CapNode
  | .single l => specLeaves l
  | .array ls => specLeavesList ls
/-- Modelled from the spec: ordered concatenation over a sublayer array. -/
def specLeavesList : List CapNode → List CapNode
  | [] => []
  | l :: ls => specLeaves l ++ specLeavesList ls
end

/-! ## Time-value characterisation of the enumerator

The allocation identifiers exist only to model object identity; the
functions below compute the time values the enumerator produces, and the
lemmas that follow prove the enumerator equal to them.  In particular the
always-false outcome of the two reference-equality includes tests is proved
from the freshness invariant on identifiers, not assumed. -/

/-- Every object in the values array was allocated before identifier n. -/
def Fresh (vs : List JSDate) (n : Nat) : Prop := ∀ v ∈ vs, v.id < n

/-- Attach consecutive allocation identifiers starting at n to a list of
time values. -/
def mkFresh (n : Nat) : List (Option Int) → List JSDate
  | [] => []
  | tv :: tvs => ⟨n, tv⟩ :: mkFresh (n + 1) tvs

/-- Time values appended by the unlimited backward walk. -/
def genTvsU (dl : Delta) (st : Option Int) (tv : Option Int) :
    Nat → List (Option Int)
  | 0 => []
  | fuel + 1 =>
    if jsGt tv st then
      let tv1 := tv.map (subtractDeltaMs dl)
      tv1 :: genTvsU dl st tv1 fuel
    else []

/-- Time values appended by the limited backward walk when the values array
already holds len instants. -/
def genTvsL (dl : Delta) (st : Option Int) (limit : Int) (len : Nat)
    (tv : Option Int) : Nat → List (Option Int)
  | 0 => []
  | fuel + 1 =>
    if (len : Int) < limit ∧ jsGt tv st then
      let tv1 := tv.map (subtractDeltaMs dl)
      tv1 :: genTvsL dl st limit (len + 1) tv1 fuel
    else []

/-- The Date objects appended for one definition when the values array holds
len objects, all allocated before identifier n. -/
def entryDates (now limit : Int) (len : Nat) (df : List Char) (n : Nat) :
    List JSDate × Nat :=
  if ¬ df.contains '/' then ([⟨n, jsTv now df⟩], n + 1)
  else
    let parts := jsSplit '/' df
    let tvA := jsTv now (parts[0]?.getD [])
    let tvB := jsTv now (parts[1]?.getD [])
    let stv := if jsLe tvA tvB then tvA else tvB
    let etv := if jsLe tvA tvB then tvB else tvA
    let sid := if jsLe tvA tvB then n else n + 1
    let eid := if jsLe tvA tvB then n + 1 else n
    match getPeriodTimedelta (parts[2]?.getD []) with
    | none => ([⟨eid, etv⟩, ⟨sid, stv⟩], n + 2)
    | some dl =>
      let gen :=
        if limit = -1 then genTvsU dl stv etv (fuelFor stv etv)
        else genTvsL dl stv limit (len + 1) etv (limFuel limit (len + 1))
      (⟨eid, etv⟩ :: (mkFresh (n + 2) gen ++ [⟨sid, stv⟩]), n + 2 + gen.length)

/-- The time values appended for one definition. -/
def entryTvs (now limit : Int) (len : Nat) (df : List Char) :
    List (Option Int) :=
  if ¬ df.contains '/' then [jsTv now df]
  else
    let parts := jsSplit '/' df
    let tvA := jsTv now (parts[0]?.getD [])
    let tvB := jsTv now (parts[1]?.getD [])
    let stv := if jsLe tvA tvB then tvA else tvB
    let etv := if jsLe tvA tvB then tvB else tvA
    match getPeriodTimedelta (parts[2]?.getD []) with
    | none => [etv, stv]
    | some dl =>
      let gen :=
        if limit = -1 then genTvsU dl stv etv (fuelFor stv etv)
        else genTvsL dl stv limit (len + 1) etv (limFuel limit (len + 1))
      etv :: (gen ++ [stv])

/-- The time values accumulated over a list of definitions, len instants
being already present. -/
def defsTvs (now limit : Int) (len : Nat) : List (List Char) →
    List (Option Int)
  | [] => []
  | df :: dfs =>
    let e := entryTvs now limit len df
    e ++ defsTvs now limit (len + e.length) dfs

/-- The sort comparator at the level of time values. -/
def tvLt (a b : Option Int) : Bool :=
  match a, b with
  | some x, some y => decide (x < y)
  | _, _ => false

/-- Stable insertion at the level of time values. -/
def tvSortInsert (x : Option Int) : List (Option Int) → List (Option Int)
  | [] => [x]
  | y :: ys => if tvLt y x then y :: tvSortInsert x ys else x :: y :: ys

/-- Stable sort at the level of time values. -/
def tvSort : List (Option Int) → List (Option Int)
  | [] => []
  | x :: xs => tvSortInsert x (tvSort xs)

/-- Comma-joined concatenation of a list of definition strings, the inverse
image of the comma split for separator-free chunks. -/
def joinComma : List (List Char) → List Char
  | [] => []
  | [df] => df
  | df :: dfs => df ++ ',' :: joinComma dfs

/-- The time values returned by enumerateAvailableTimes. -/
def enumTvs (now : Int) (text : List Char) (limit : Int) (sorted : Bool) :
    List (Option Int) :=
  let tvs := defsTvs now limit 0 (jsSplit ',' text)
  if sorted then tvSort tvs else tvs

/-! ## Concrete capability trees used by the claim instances below -/

def duplicateTimeLeaf : CapNode :=
  .mk none none (some "Pollen") (some "Pollenflug")
    (some [⟨"time", "ISO8601", some "2020-01-01T00:00:00Z",
        "2020-01-01T00:00:00Z"⟩,
      ⟨"time", "ISO8601", some "2020-02-01T00:00:00Z",
        "2020-02-02T00:00:00Z"⟩])
    none none

def duplicateTimeCapability : CapNode :=
  .mk none (some (.single duplicateTimeLeaf)) none none none none none

def dimFirst : Dimension :=
  ⟨"time", "ISO8601", some "2020-01-01T00:00:00Z", "2020-01-01T00:00:00Z"⟩

def dimSecond : Dimension :=
  ⟨"time", "ISO8601", some "2020-02-01T00:00:00Z", "2020-02-02T00:00:00Z"⟩

def blankRecord : LayerRecord :=
  ⟨some "Pollen", none, "", none, none, [-180, -90, 180, 90]⟩

def backgroundLeaf : CapNode :=
  .mk none none (some "background") none none none none

def pollenLeaf : CapNode :=
  .mk none none (some "Pollen") (some "Pollenflug")
    (some [⟨"time", "ISO8601", none,
      "2021-06-01T00:00:00Z/2021-06-03T00:00:00Z/P1D"⟩]) none none

def pollenCapability : CapNode :=
  .mk none (some (.array [backgroundLeaf, pollenLeaf])) none none none none
    none

theorem mkFresh_map_tv (n : Nat) (tvs : List (Option Int)) :
    (mkFresh n tvs).map (·.tv) = tvs := by
  induction tvs generalizing n with
  | nil => rfl
  | cons tv tvs ih => simp [mkFresh, ih]

theorem mkFresh_length (n : Nat) (tvs : List (Option Int)) :
    (mkFresh n tvs).length = tvs.length := by
  induction tvs generalizing n with
  | nil => rfl
  | cons tv tvs ih => simp [mkFresh, ih]

theorem mem_mkFresh_id {v : JSDate} {n : Nat} {tvs : List (Option Int)}
    (h : v ∈ mkFresh n tvs) : n ≤ v.id ∧ v.id < n + tvs.length := by
  induction tvs generalizing n with
  | nil => simp [mkFresh] at h
  | cons tv tvs ih =>
    simp only [mkFresh, List.mem_cons] at h
    rcases h with h | h
    · subst h; simp
    · have := ih h
      simp only [List.length_cons]
      omega

theorem contains_eq_false {vs : List JSDate} {x : JSDate} (h : x ∉ vs) :
    vs.contains x = false := by
  cases hc : vs.contains x with
  | false => rfl
  | true => exact absurd (List.elem_iff.mp hc) h

theorem walkUnlimited_eq (dl : Delta) (st : Option Int) (t : JSDate)
    (vs : List JSDate) (n : Nat) (fuel : Nat) :
    walkUnlimited dl st t vs n fuel =
      (vs ++ mkFresh n (genTvsU dl st t.tv fuel),
        n + (genTvsU dl st t.tv fuel).length) := by
  induction fuel generalizing t vs n with
  | zero => simp [walkUnlimited, genTvsU, mkFresh]
  | succ fuel ih =>
    cases hgt : jsGt t.tv st with
    | false => simp [walkUnlimited, genTvsU, hgt, mkFresh]
    | true =>
      simp only [walkUnlimited, genTvsU, hgt, if_pos, subtractTimeDelta]
      rw [ih]
      simp [mkFresh]
      omega

theorem walkLimited_eq (dl : Delta) (st : Option Int) (limit : Int)
    (t : JSDate) (vs : List JSDate) (n : Nat) (fuel : Nat) :
    walkLimited dl st limit t vs n fuel =
      (vs ++ mkFresh n (genTvsL dl st limit vs.length t.tv fuel),
        n + (genTvsL dl st limit vs.length t.tv fuel).length) := by
  induction fuel generalizing t vs n with
  | zero => simp [walkLimited, genTvsL, mkFresh]
  | succ fuel ih =>
    by_cases hc : (vs.length : Int) < limit ∧ jsGt t.tv st
    · simp only [walkLimited, genTvsL, if_pos hc, subtractTimeDelta]
      rw [ih]
      simp [mkFresh]
      omega
    · rw [walkLimited, if_neg hc, genTvsL, if_neg hc]
      simp [mkFresh]

theorem fresh_not_mem {vs : List JSDate} {n : Nat} (h : Fresh vs n)
    {x : JSDate} (hx : n ≤ x.id) : x ∉ vs :=
  fun hm => absurd (h x hm) (by omega)

theorem id_ne_not_mem_single {x y : JSDate} (h : x.id ≠ y.id) : x ∉ [y] := by
  intro hm
  rcases List.mem_singleton.mp hm with rfl
  exact h rfl

theorem not_mem_mkFresh {x : JSDate} {m : Nat} (tvs : List (Option Int))
    (hx : x.id < m) : x ∉ mkFresh m tvs := by
  intro hm
  have := (mem_mkFresh_id hm).1
  omega

theorem processDef_eq (now limit : Int) (vs : List JSDate) (n : Nat)
    (df : List Char) (h : Fresh vs n) :
    processDef now limit (vs, n) df =
      (vs ++ (entryDates now limit vs.length df n).1,
        (entryDates now limit vs.length df n).2) := by
  cases hsl : df.contains '/' with
  | false =>
    simp only [processDef, entryDates, toDate, hsl, Bool.false_eq_true,
      not_false_iff, if_true, eq_self_iff_true]
  | true =>
    have hA : (⟨n, jsTv now ((jsSplit '/' df)[0]?.getD [])⟩ : JSDate) ∉ vs :=
      fresh_not_mem h (Nat.le_refl n)
    have hB : (⟨n + 1, jsTv now ((jsSplit '/' df)[1]?.getD [])⟩ : JSDate) ∉ vs :=
      fresh_not_mem h (Nat.le_succ n)
    have c1 : vs.contains ⟨n + 1, jsTv now ((jsSplit '/' df)[1]?.getD [])⟩ = false :=
      contains_eq_false hB
    have c1a : vs.contains ⟨n, jsTv now ((jsSplit '/' df)[0]?.getD [])⟩ = false :=
      contains_eq_false hA
    have c2 : (vs ++ [(⟨n + 1, jsTv now ((jsSplit '/' df)[1]?.getD [])⟩ : JSDate)]).contains
        ⟨n, jsTv now ((jsSplit '/' df)[0]?.getD [])⟩ = false :=
      contains_eq_false (List.not_mem_append hA (id_ne_not_mem_single (by simp)))
    have c2a : (vs ++ [(⟨n, jsTv now ((jsSplit '/' df)[0]?.getD [])⟩ : JSDate)]).contains
        ⟨n + 1, jsTv now ((jsSplit '/' df)[1]?.getD [])⟩ = false :=
      contains_eq_false (List.not_mem_append hB (id_ne_not_mem_single (by simp)))
    have c3 : ∀ tvs : List (Option Int),
        (vs ++ (⟨n + 1, jsTv now ((jsSplit '/' df)[1]?.getD [])⟩ : JSDate) ::
          mkFresh (n + 1 + 1) tvs).contains
            ⟨n, jsTv now ((jsSplit '/' df)[0]?.getD [])⟩ = false := by
      intro tvs
      refine contains_eq_false ?_
      intro hm
      rcases List.mem_append.mp hm with hm | hm
      · exact hA hm
      · rcases List.mem_cons.mp hm with hm | hm
        · exact absurd (congrArg JSDate.id hm) (by show ¬ n = n + 1; omega)
        · exact absurd (mem_mkFresh_id hm).1 (by show ¬ n + 1 + 1 ≤ n; omega)
    have c3a : ∀ tvs : List (Option Int),
        (vs ++ (⟨n, jsTv now ((jsSplit '/' df)[0]?.getD [])⟩ : JSDate) ::
          mkFresh (n + 1 + 1) tvs).contains
            ⟨n + 1, jsTv now ((jsSplit '/' df)[1]?.getD [])⟩ = false := by
      intro tvs
      refine contains_eq_false ?_
      intro hm
      rcases List.mem_append.mp hm with hm | hm
      · exact hB hm
      · rcases List.mem_cons.mp hm with hm | hm
        · exact absurd (congrArg JSDate.id hm) (by show ¬ n + 1 = n; omega)
        · exact absurd (mem_mkFresh_id hm).1 (by show ¬ n + 1 + 1 ≤ n + 1; omega)
    cases hle : jsLe (jsTv now ((jsSplit '/' df)[0]?.getD []))
        (jsTv now ((jsSplit '/' df)[1]?.getD [])) with
    | true =>
      rcases hd : getPeriodTimedelta ((jsSplit '/' df)[2]?.getD []) with _ | dl
      · simp only [processDef, entryDates, toDate, hsl, hle, hd, c1, c2,
          eq_self_iff_true, not_true, if_true, if_false, Bool.false_eq_true,
          List.append_assoc, List.cons_append, List.singleton_append,
          List.nil_append, Prod.mk.injEq]
      · by_cases hlim : limit = -1
        · simp only [processDef, entryDates, toDate, hsl, hle, hd, hlim, c1,
            eq_self_iff_true, not_true, if_true, if_false, Bool.false_eq_true,
            walkUnlimited_eq, c3, List.append_assoc, List.cons_append,
            List.singleton_append, List.nil_append, Prod.mk.injEq,
            mkFresh_length]
        · simp only [processDef, entryDates, toDate, hsl, hle, hd, hlim, c1,
            eq_self_iff_true, not_true, if_true, if_false, Bool.false_eq_true,
            walkLimited_eq, c3, List.length_append, List.length_cons,
            List.length_nil, List.append_assoc, List.cons_append,
            List.singleton_append, List.nil_append, Prod.mk.injEq,
            mkFresh_length]
    | false =>
      rcases hd : getPeriodTimedelta ((jsSplit '/' df)[2]?.getD []) with _ | dl
      · simp only [processDef, entryDates, toDate, hsl, hle, hd, c1a, c2a,
          eq_self_iff_true, not_true, if_true, if_false, Bool.false_eq_true,
          List.append_assoc, List.cons_append, List.singleton_append,
          List.nil_append, Prod.mk.injEq]
      · by_cases hlim : limit = -1
        · simp only [processDef, entryDates, toDate, hsl, hle, hd, hlim, c1a,
            eq_self_iff_true, not_true, if_true, if_false, Bool.false_eq_true,
            walkUnlimited_eq, c3a, List.append_assoc, List.cons_append,
            List.singleton_append, List.nil_append, Prod.mk.injEq,
            mkFresh_length]
        · simp only [processDef, entryDates, toDate, hsl, hle, hd, hlim, c1a,
            eq_self_iff_true, not_true, if_true, if_false, Bool.false_eq_true,
            walkLimited_eq, c3a, List.length_append, List.length_cons,
            List.length_nil, List.append_assoc, List.cons_append,
            List.singleton_append, List.nil_append, Prod.mk.injEq,
            mkFresh_length]

theorem entryDates_bounds (now limit : Int) (len : Nat) (df : List Char)
    (n : Nat) :
    n ≤ (entryDates now limit len df n).2 ∧
      ∀ v ∈ (entryDates now limit len df n).1,
        v.id < (entryDates now limit len df n).2 := by
  by_cases hsl : '/' ∈ df
  · rcases hd : getPeriodTimedelta ((jsSplit '/' df)[2]?.getD []) with _ | dl
    · constructor
      · simp [entryDates, hsl, hd]
      · intro v hv
        simp [entryDates, hsl, hd] at hv ⊢
        rcases hv with rfl | rfl <;> split <;> simp
    · constructor
      · simp [entryDates, hsl, hd]
        omega
      · intro v hv
        simp [entryDates, hsl, hd] at hv ⊢
        rcases hv with rfl | hv | rfl
        · split <;> simp <;> omega
        · have := mem_mkFresh_id hv
          omega
        · split <;> simp <;> omega
  · constructor
    · simp [entryDates, hsl]
    · intro v hv
      simp [entryDates, hsl] at hv
      subst hv
      simp [entryDates, hsl]

theorem entryDates_map_tv (now limit : Int) (len : Nat) (df : List Char)
    (n : Nat) :
    (entryDates now limit len df n).1.map (·.tv) = entryTvs now limit len df := by
  by_cases hsl : '/' ∈ df
  · rcases hd : getPeriodTimedelta ((jsSplit '/' df)[2]?.getD []) with _ | dl <;>
      simp [entryDates, entryTvs, hsl, hd, mkFresh_map_tv]
  · simp [entryDates, entryTvs, hsl]

theorem entryDates_len (now limit : Int) (len : Nat) (df : List Char)
    (n : Nat) :
    (entryDates now limit len df n).1.length =
      (entryTvs now limit len df).length := by
  have := congrArg List.length (entryDates_map_tv now limit len df n)
  simpa using this

theorem foldl_processDef_eq (now limit : Int) (dfs : List (List Char))
    (vs : List JSDate) (n : Nat) (h : Fresh vs n) :
    ((dfs.foldl (processDef now limit) (vs, n)).1.map (·.tv) =
        vs.map (·.tv) ++ defsTvs now limit vs.length dfs) ∧
      Fresh (dfs.foldl (processDef now limit) (vs, n)).1
        (dfs.foldl (processDef now limit) (vs, n)).2 := by
  induction dfs generalizing vs n with
  | nil => simpa [defsTvs] using h
  | cons df dfs ih =>
    rw [List.foldl_cons, processDef_eq now limit vs n df h]
    have hf : Fresh (vs ++ (entryDates now limit vs.length df n).1)
        (entryDates now limit vs.length df n).2 := by
      intro v hv
      rcases List.mem_append.mp hv with hv | hv
      · exact lt_of_lt_of_le (h v hv) (entryDates_bounds now limit vs.length df n).1
      · exact (entryDates_bounds now limit vs.length df n).2 v hv
    have hih := ih _ _ hf
    refine ⟨?_, hih.2⟩
    rw [hih.1]
    simp [defsTvs, entryDates_map_tv, entryDates_len]

theorem jsSortInsert_map_tv (x : JSDate) (l : List JSDate) :
    (jsSortInsert x l).map (·.tv) = tvSortInsert x.tv (l.map (·.tv)) := by
  induction l with
  | nil => rfl
  | cons y ys ih =>
    show (if dateLt y x then y :: jsSortInsert x ys else x :: y :: ys).map (·.tv) = _
    have hd : dateLt y x = tvLt y.tv x.tv := rfl
    cases hlt : tvLt y.tv x.tv <;>
      simp [tvSortInsert, hd, hlt, ih]

theorem jsSort_map_tv (l : List JSDate) :
    (jsSort l).map (·.tv) = tvSort (l.map (·.tv)) := by
  induction l with
  | nil => rfl
  | cons x xs ih => simp [jsSort, tvSort, jsSortInsert_map_tv, ih]

theorem tvSortInsert_perm (x : Option Int) (l : List (Option Int)) :
    (tvSortInsert x l).Perm (x :: l) := by
  induction l with
  | nil => exact List.Perm.refl _
  | cons y ys ih =>
    show (if tvLt y x then y :: tvSortInsert x ys else x :: y :: ys).Perm _
    cases hlt : tvLt y x
    · simp only [Bool.false_eq_true, if_false]
      exact List.Perm.refl _
    · simp only [eq_self_iff_true, if_true]
      exact ((ih.cons y).trans (List.Perm.swap x y ys))

theorem tvSort_perm (l : List (Option Int)) : (tvSort l).Perm l := by
  induction l with
  | nil => exact List.Perm.refl _
  | cons x xs ih => exact (tvSortInsert_perm x (tvSort xs)).trans (ih.cons x)

theorem enumerate_map_tv (now : Int) (text : List Char) (limit : Int)
    (sorted : Bool) (n : Nat) :
    (enumerateAvailableTimes now text limit sorted n).1.map (·.tv) =
      enumTvs now text limit sorted := by
  have h := foldl_processDef_eq now limit (jsSplit ',' text) [] n
    (by intro v hv; simp at hv)
  cases sorted <;>
    simp [enumerateAvailableTimes, enumTvs, jsSort_map_tv, h.1]

theorem jsSplit_not_mem {sep : Char} {l : List Char} (h : sep ∉ l) :
    jsSplit sep l = [l] := by
  induction l with
  | nil => rfl
  | cons c cs ih =>
    have hc : ¬ c = sep := fun hh => h (hh ▸ List.mem_cons_self c cs)
    have hcs : sep ∉ cs := fun hh => h (List.mem_cons_of_mem c hh)
    simp only [jsSplit, if_neg hc, ih hcs]

theorem jsSplit_append {sep : Char} {s t : List Char} (h : sep ∉ s) :
    jsSplit sep (s ++ sep :: t) = s :: jsSplit sep t := by
  induction s with
  | nil => simp [jsSplit]
  | cons c cs ih =>
    have hc : ¬ c = sep := fun hh => h (hh ▸ List.mem_cons_self c cs)
    have hcs : sep ∉ cs := fun hh => h (List.mem_cons_of_mem c hh)
    simp only [List.cons_append, jsSplit, if_neg hc, List.append_eq]
    rw [ih hcs]

theorem contains_eq_true_of_mem {c : Char} {l : List Char} (h : c ∈ l) :
    l.contains c = true :=
  List.elem_iff.mpr h

theorem genTvsU_nil {dl : Delta} {st tv : Option Int}
    (h : jsGt tv st = false) (fuel : Nat) : genTvsU dl st tv fuel = [] := by
  cases fuel <;> simp [genTvsU, h]

theorem genTvsL_nil {dl : Delta} {st tv : Option Int} {limit : Int} {len : Nat}
    (h : jsGt tv st = false) (fuel : Nat) :
    genTvsL dl st limit len tv fuel = [] := by
  cases fuel <;> simp [genTvsL, h]

theorem jsLe_antisymm {x y : Option Int} (h1 : jsLe x y = true)
    (h2 : jsLe y x = true) : x = y := by
  cases x <;> cases y <;> simp [jsLe] at h1 h2 ⊢
  omega

theorem jsLe_both_false {x y : Option Int} (h1 : jsLe x y = false)
    (h2 : jsLe y x = false) : x = none ∨ y = none := by
  cases x <;> cases y <;> simp [jsLe] at h1 h2 ⊢
  omega

theorem jsGt_none_left {b : Option Int} : jsGt none b = false := by
  cases b <;> rfl

theorem jsGt_none_right {a : Option Int} : jsGt a none = false := by
  cases a <;> rfl

theorem entryTvs_swap (now limit : Int) (len : Nat) (a b p : List Char)
    (ha : '/' ∉ a) (hb : '/' ∉ b) :
    (entryTvs now limit len (a ++ '/' :: (b ++ '/' :: p))).Perm
      (entryTvs now limit len (b ++ '/' :: (a ++ '/' :: p))) := by
  have hsl1 : (a ++ '/' :: (b ++ '/' :: p)).contains '/' = true :=
    contains_eq_true_of_mem (by simp)
  have hsl2 : (b ++ '/' :: (a ++ '/' :: p)).contains '/' = true :=
    contains_eq_true_of_mem (by simp)
  have hparts1 : jsSplit '/' (a ++ '/' :: (b ++ '/' :: p)) =
      a :: b :: jsSplit '/' p := by
    rw [jsSplit_append ha, jsSplit_append hb]
  have hparts2 : jsSplit '/' (b ++ '/' :: (a ++ '/' :: p)) =
      b :: a :: jsSplit '/' p := by
    rw [jsSplit_append hb, jsSplit_append ha]
  simp only [entryTvs, hsl1, hsl2, hparts1, hparts2, not_true, if_false,
    List.getElem?_cons_zero, List.getElem?_cons_succ, Option.getD_some,
    Bool.true_eq_false, Bool.false_eq_true]
  cases h1 : jsLe (jsTv now a) (jsTv now b) <;>
    cases h2 : jsLe (jsTv now b) (jsTv now a) <;>
    simp only [Bool.false_eq_true, if_false, eq_self_iff_true, if_true]
  · -- neither endpoint comparable: a NaN endpoint, no steps generated
    have hnone := jsLe_both_false h1 h2
    have hgt1 : jsGt (jsTv now a) (jsTv now b) = false := by
      rcases hnone with hn | hn <;> rw [hn]
      · exact jsGt_none_left
      · exact jsGt_none_right
    have hgt2 : jsGt (jsTv now b) (jsTv now a) = false := by
      rcases hnone with hn | hn <;> rw [hn]
      · exact jsGt_none_right
      · exact jsGt_none_left
    rcases hd : getPeriodTimedelta ((jsSplit '/' p)[0]?.getD []) with _ | dl <;>
      simp only [hd]
    · exact List.Perm.swap _ _ _
    · rw [genTvsU_nil hgt1, genTvsL_nil hgt1, genTvsU_nil hgt2,
        genTvsL_nil hgt2]
      simp only [ite_self, List.nil_append]
      exact List.Perm.swap _ _ _
  · exact List.Perm.refl _
  · exact List.Perm.refl _
  · rw [jsLe_antisymm h1 h2]

theorem defsTvs_single (now limit : Int) (len : Nat) (df : List Char) :
    defsTvs now limit len [df] = entryTvs now limit len df := by
  simp [defsTvs]

/-- C6: for every pair of endpoint strings and period, swapping the two
written endpoint positions of an interval entry yields the same set of
instants: the endpoints are normalised by the comparison on time values
before any generation, and when neither order test succeeds (an invalid
endpoint) no steps are generated, so only the two endpoint instants change
places. -/
theorem enumerateAvailableTimes_swap_endpoints (now limit : Int)
    (sorted : Bool) (n : Nat) (a b p : List Char) (ha1 : '/' ∉ a)
    (ha2 : ',' ∉ a) (hb1 : '/' ∉ b) (hb2 : ',' ∉ b) (hp : ',' ∉ p) :
    ((enumerateAvailableTimes now (a ++ '/' :: (b ++ '/' :: p)) limit sorted
        n).1.map (·.tv)).Perm
      ((enumerateAvailableTimes now (b ++ '/' :: (a ++ '/' :: p)) limit sorted
        n).1.map (·.tv)) := by
  rw [enumerate_map_tv, enumerate_map_tv]
  have hstep : ∀ s t : List Char, ',' ∉ s → ',' ∉ t →
      (',' : Char) ∉ s ++ '/' :: t := by
    intro s t hs ht hm
    rcases List.mem_append.mp hm with hm | hm
    · exact hs hm
    · rcases List.mem_cons.mp hm with hm | hm
      · exact absurd hm (by decide)
      · exact ht hm
  have hc1 : (',' : Char) ∉ a ++ '/' :: (b ++ '/' :: p) :=
    hstep a _ ha2 (hstep b p hb2 hp)
  have hc2 : (',' : Char) ∉ b ++ '/' :: (a ++ '/' :: p) :=
    hstep b _ hb2 (hstep a p ha2 hp)
  have key := entryTvs_swap now limit 0 a b p ha1 hb1
  unfold enumTvs
  rw [jsSplit_not_mem hc1, jsSplit_not_mem hc2, defsTvs_single, defsTvs_single]
  cases sorted
  · exact key
  · exact (tvSort_perm _).trans (key.trans (tvSort_perm _).symm)

theorem genTvsL_length_le (dl : Delta) (st : Option Int) (limit : Int) :
    ∀ (fuel len : Nat) (tv : Option Int),
      (genTvsL dl st limit len tv fuel).length ≤ (limit - (len : Int)).toNat := by
  intro fuel
  induction fuel with
  | zero =>
    intro len tv
    simp [genTvsL]
  | succ fuel ih =>
    intro len tv
    by_cases hc : (len : Int) < limit ∧ jsGt tv st = true
    · rw [genTvsL, if_pos hc]
      have h1 := ih (len + 1) (tv.map (subtractDeltaMs dl))
      have h2 : (len : Int) < limit := hc.1
      simp only [List.length_cons]
      omega
    · rw [genTvsL, if_neg hc]
      simp

theorem contains_false_of_not_mem {α : Type} [BEq α] [LawfulBEq α]
    {l : List α} {x : α} (h : x ∉ l) : l.contains x = false := by
  cases hc : l.contains x with
  | false => rfl
  | true => exact absurd (List.elem_iff.mp hc) h

theorem enumTvs_length (now : Int) (text : List Char) (limit : Int)
    (sorted : Bool) :
    (enumTvs now text limit sorted).length =
      (defsTvs now limit 0 (jsSplit ',' text)).length := by
  unfold enumTvs
  cases sorted
  · simp
  · simp [(tvSort_perm (defsTvs now limit 0 (jsSplit ',' text))).length_eq]

theorem entry_gen_bound (dl : Delta) (stv etv : Option Int) (N : Int)
    (hN : 0 ≤ N) :
    (etv :: (genTvsL dl stv N (0 + 1) etv (limFuel N (0 + 1)) ++
      [stv])).length ≤ N.toNat + 2 := by
  have := genTvsL_length_le dl stv N (limFuel N (0 + 1)) (0 + 1) etv
  simp only [List.length_cons, List.length_append, List.length_singleton,
    List.length_nil]
  omega

/-- C8: for every interval entry and every limit N at least 0, the result of
enumerateAvailableTimes holds at most N + 2 instants: the limited walk stops
as soon as the accumulated values array reaches length N, and only the two
endpoint pushes escape the length test. -/
theorem enumerateAvailableTimes_length_le (now : Int) (sorted : Bool)
    (n : Nat) (a b p : List Char) (N : Int) (hN : 0 ≤ N) (ha1 : '/' ∉ a)
    (ha2 : ',' ∉ a) (hb1 : '/' ∉ b) (hb2 : ',' ∉ b) (hp : ',' ∉ p) :
    (enumerateAvailableTimes now (a ++ '/' :: (b ++ '/' :: p)) N sorted
      n).1.length ≤ N.toNat + 2 := by
  have hmap := congrArg List.length
    (enumerate_map_tv now (a ++ '/' :: (b ++ '/' :: p)) N sorted n)
  rw [List.length_map] at hmap
  have hstep : ∀ s t : List Char, ',' ∉ s → ',' ∉ t →
      (',' : Char) ∉ s ++ '/' :: t := by
    intro s t hs ht hm
    rcases List.mem_append.mp hm with hm | hm
    · exact hs hm
    · rcases List.mem_cons.mp hm with hm | hm
      · exact absurd hm (by decide)
      · exact ht hm
  have hc1 : (',' : Char) ∉ a ++ '/' :: (b ++ '/' :: p) :=
    hstep a _ ha2 (hstep b p hb2 hp)
  have hsl : (a ++ '/' :: (b ++ '/' :: p)).contains '/' = true :=
    contains_eq_true_of_mem (by simp)
  rw [hmap, enumTvs_length, jsSplit_not_mem hc1, defsTvs_single]
  simp only [entryTvs, hsl, not_true, if_false, Bool.true_eq_false]
  rcases hd : getPeriodTimedelta
      ((jsSplit '/' (a ++ '/' :: (b ++ '/' :: p)))[2]?.getD []) with _ | dl <;>
    simp only [hd]
  · simp
  · rw [if_neg (by omega : ¬ N = -1)]
    exact entry_gen_bound dl _ _ N hN

theorem jsSplit_joinComma : ∀ dfs : List (List Char), dfs ≠ [] →
    (∀ df ∈ dfs, ',' ∉ df) → jsSplit ',' (joinComma dfs) = dfs := by
  intro dfs
  induction dfs with
  | nil => intro h; exact absurd rfl h
  | cons df dfs ih =>
    intro _ h
    cases dfs with
    | nil => exact jsSplit_not_mem (h df (List.mem_cons_self df []))
    | cons df2 dfs2 =>
      show jsSplit ',' (df ++ ',' :: joinComma (df2 :: dfs2)) = _
      rw [jsSplit_append (h df (List.mem_cons_self df _)),
        ih (by simp) (fun x hx => h x (List.mem_cons_of_mem _ hx))]

theorem defsTvs_singletons (now limit : Int) :
    ∀ (dfs : List (List Char)) (len : Nat), (∀ df ∈ dfs, '/' ∉ df) →
      (defsTvs now limit len dfs).length = dfs.length := by
  intro dfs
  induction dfs with
  | nil => intro len _; rfl
  | cons df dfs ih =>
    intro len h
    have he : entryTvs now limit len df = [jsTv now df] := by
      simp [entryTvs, h df (List.mem_cons_self df dfs)]
    show (entryTvs now limit len df ++
      defsTvs now limit (len + (entryTvs now limit len df).length) dfs).length = _
    rw [he]
    simp [ih _ (fun x hx => h x (List.mem_cons_of_mem _ hx))]

/-- C10: enumerateAvailableTimes appends one instant per single-instant
entry without consulting the limit, so a definition made of k comma-joined
single instants always yields k instants, whatever the limit. -/
theorem enumerateAvailableTimes_singles_ignore_limit (now limit : Int)
    (sorted : Bool) (n : Nat) (dfs : List (List Char)) (hne : dfs ≠ [])
    (h : ∀ df ∈ dfs, ',' ∉ df ∧ '/' ∉ df) :
    (enumerateAvailableTimes now (joinComma dfs) limit sorted n).1.length =
      dfs.length := by
  have hmap := congrArg List.length
    (enumerate_map_tv now (joinComma dfs) limit sorted n)
  rw [List.length_map] at hmap
  rw [hmap, enumTvs_length, jsSplit_joinComma dfs hne
    (fun df hdf => (h df hdf).1)]
  exact defsTvs_singletons now limit dfs 0 (fun df hdf => (h df hdf).2)

theorem jsGt_true_exists {a b : Option Int} (h : jsGt a b = true) :
    ∃ x, a = some x := by
  cases a with
  | none => rw [jsGt_none_left] at h; exact Bool.noConfusion h
  | some x => exact ⟨x, rfl⟩

theorem genTvsU_mem (dl : Delta) (st : Option Int) :
    ∀ (fuel : Nat) (tv : Option Int), ∀ x ∈ genTvsU dl st tv fuel,
      ∃ p : Int, jsGt (some p) st = true ∧ x = some (subtractDeltaMs dl p) := by
  intro fuel
  induction fuel with
  | zero => intro tv x hx; simp [genTvsU] at hx
  | succ fuel ih =>
    intro tv x hx
    cases hgt : jsGt tv st with
    | false => rw [genTvsU, if_neg (by simp [hgt])] at hx; simp at hx
    | true =>
      rw [genTvsU, if_pos (by simp [hgt])] at hx
      rcases List.mem_cons.mp hx with rfl | hx
      · obtain ⟨p, rfl⟩ := jsGt_true_exists hgt
        exact ⟨p, hgt, rfl⟩
      · exact ih _ x hx

theorem genTvsL_mem (dl : Delta) (st : Option Int) (limit : Int) :
    ∀ (fuel len : Nat) (tv : Option Int), ∀ x ∈ genTvsL dl st limit len tv fuel,
      ∃ p : Int, jsGt (some p) st = true ∧ x = some (subtractDeltaMs dl p) := by
  intro fuel
  induction fuel with
  | zero => intro len tv x hx; simp [genTvsL] at hx
  | succ fuel ih =>
    intro len tv x hx
    by_cases hc : (len : Int) < limit ∧ jsGt tv st = true
    · rw [genTvsL, if_pos hc] at hx
      rcases List.mem_cons.mp hx with rfl | hx
      · obtain ⟨p, rfl⟩ := jsGt_true_exists hc.2
        exact ⟨p, hc.2, rfl⟩
      · exact ih _ _ x hx
    · rw [genTvsL, if_neg hc] at hx
      simp at hx

theorem mem_mkFresh_tv {v : JSDate} {n : Nat} {tvs : List (Option Int)}
    (h : v ∈ mkFresh n tvs) : v.tv ∈ tvs := by
  induction tvs generalizing n with
  | nil => simp [mkFresh] at h
  | cons tv tvs ih =>
    rcases List.mem_cons.mp h with rfl | h
    · exact List.mem_cons_self _ _
    · exact List.mem_cons_of_mem _ (ih h)

/-- C3, amended: every Date object appended by either backward-walk loop is
obtained by one period subtraction from a time value strictly greater than
start; the walk tests the loop condition before subtracting, so the appended
instant itself may fall at or before start (one overshoot step), which the
counterexample below exhibits. -/
theorem walk_appends_only_from_after_start (dl : Delta) (st : Option Int)
    (limit : Int) (t : JSDate) (vs : List JSDate) (n fuel : Nat) :
    (∀ v ∈ (walkUnlimited dl st t vs n fuel).1, v ∈ vs ∨
      ∃ p : Int, jsGt (some p) st = true ∧
        v.tv = some (subtractDeltaMs dl p)) ∧
    (∀ v ∈ (walkLimited dl st limit t vs n fuel).1, v ∈ vs ∨
      ∃ p : Int, jsGt (some p) st = true ∧
        v.tv = some (subtractDeltaMs dl p)) := by
  constructor
  · intro v hv
    rw [walkUnlimited_eq] at hv
    rcases List.mem_append.mp hv with hv | hv
    · exact Or.inl hv
    · obtain ⟨p, hp1, hp2⟩ := genTvsU_mem dl st _ _ _ (mem_mkFresh_tv hv)
      exact Or.inr ⟨p, hp1, hp2⟩
  · intro v hv
    rw [walkLimited_eq] at hv
    rcases List.mem_append.mp hv with hv | hv
    · exact Or.inl hv
    · obtain ⟨p, hp1, hp2⟩ := genTvsL_mem dl st limit _ _ _ _ (mem_mkFresh_tv hv)
      exact Or.inr ⟨p, hp1, hp2⟩

/-- C3, counterexample: on the interval entry from 2020-01-01T12:00:00Z to
2020-01-03T00:00:00Z with period P1D, the backward walk appends
2020-01-02T00:00:00Z and then 2020-01-01T00:00:00Z, which falls strictly
before the start instant 2020-01-01T12:00:00Z, and both lie inside the
returned sequence. -/
theorem walk_overshoots_start :
    (enumerateAvailableTimes 0
        "2020-01-01T12:00:00Z/2020-01-03T00:00:00Z/P1D".data (-1) false
        0).1.map (·.tv) =
      [dateParse "2020-01-03T00:00:00Z".data,
        dateParse "2020-01-02T00:00:00Z".data,
        dateParse "2020-01-01T00:00:00Z".data,
        dateParse "2020-01-01T12:00:00Z".data] ∧
    dateParse "2020-01-01T00:00:00Z".data = some 1577836800000 ∧
    dateParse "2020-01-01T12:00:00Z".data = some 1577880000000 ∧
    (1577836800000 : Int) < 1577880000000 := by
  refine ⟨by decide, by decide, by decide, by decide⟩

/-- C3, witness: the amended walk theorem applied to a one-day backward step
from epoch time 86400000 with start 0: the appended instant 0 comes from the
instant 86400000, which lies strictly after start. -/
theorem walk_appends_witness :
    (⟨1, (some 0 : Option Int)⟩ : JSDate) ∈ ([] : List JSDate) ∨
      ∃ p : Int, jsGt (some p) (some 0) = true ∧
        (⟨1, (some 0 : Option Int)⟩ : JSDate).tv =
          some (subtractDeltaMs ⟨0, 0, 1, 0, 0, 0⟩ p) :=
  (walk_appends_only_from_after_start ⟨0, 0, 1, 0, 0, 0⟩ (some 0) 240
      ⟨0, some 86400000⟩ [] 1 2).1 ⟨1, some 0⟩ (by decide)

theorem isNonZeroDelta_eq_false_iff (d : Delta) :
    isNonZeroDelta d = false ↔ d = Delta.zero := by
  cases d
  simp [isNonZeroDelta, Delta.zero]
  omega

/-- C5: getPeriodTimedelta maps P1Y2M3D to the delta (1, 2, 3, 0, 0, 0);
it is a total function that returns the invalid marker none exactly when the
text does not match the case-insensitive period pattern, or matches it with
every component resolving to zero; in particular P0Y and garbage are both
invalid. -/
theorem getPeriodTimedelta_spec :
    getPeriodTimedelta ("P1Y2M3D".data) = some ⟨1, 2, 3, 0, 0, 0⟩ ∧
    (∀ cs : List Char, getPeriodTimedelta cs = none ↔
      (periodMatch cs = none ∨
        ∃ g, periodMatch cs = some g ∧ deltaOfGroups g = Delta.zero)) ∧
    getPeriodTimedelta ("P0Y".data) = none ∧
    getPeriodTimedelta ("garbage".data) = none := by
  refine ⟨by decide, ?_, by decide, by decide⟩
  intro cs
  cases hm : periodMatch cs with
  | none => simp [getPeriodTimedelta, hm]
  | some g =>
    simp only [getPeriodTimedelta, hm]
    cases hz : isNonZeroDelta (deltaOfGroups g) with
    | false =>
      simp only [Bool.false_eq_true, if_false]
      simp [(isNonZeroDelta_eq_false_iff _).mp hz]
    | true =>
      simp only [eq_self_iff_true, if_true]
      constructor
      · intro hnone; exact Option.noConfusion hnone
      · intro hno
        rcases hno with hno | ⟨g1, hg1, hg2⟩
        · exact Option.noConfusion hno
        · rcases Option.some.inj hg1 with rfl
          rw [← isNonZeroDelta_eq_false_iff (deltaOfGroups g)] at hg2
          rw [hz] at hg2
          exact Bool.noConfusion hg2

/-- C4, counterexample: on the input garbage, which is neither the token
current nor a valid date-time, toDate returns an Invalid Date object (time
value NaN) to its caller; no error is raised, the sentinel is produced. -/
theorem toDate_garbage_sentinel :
    ("garbage".data ≠ "current".data) ∧
    dateParse "garbage".data = none ∧
    (toDate 0 "garbage".data 0).1 = ⟨0, none⟩ := by
  refine ⟨by decide, by decide, by decide⟩

/-- C4, amended: for every input that is neither the literal token current
nor a date-time accepted by the modelled Date.parse, toDate returns the
Invalid Date sentinel (time value NaN) to its immediate caller; toDate is
total and never raises. -/
theorem toDate_invalid_is_sentinel (now : Int) (cs : List Char) (n : Nat)
    (h1 : cs ≠ "current".data) (h2 : dateParse cs = none) :
    (toDate now cs n).1.tv = none := by
  simp [toDate, jsTv, h1, h2]

/-- C4, witness: toDate applied to the unparsable input notadate yields the
Invalid Date sentinel. -/
theorem toDate_invalid_witness : (toDate 5 "notadate".data 3).1.tv = none :=
  toDate_invalid_is_sentinel 5 "notadate".data 3 (by decide) (by decide)

mutual
theorem getAllLayers_eq_specLeaves (t : CapNode) :
    getAllLayers t = specLeaves t := by
  match t with
  | .mk (some cap) _ _ _ _ _ _ =>
    show getAllLayers cap = specLeaves cap
    exact getAllLayers_eq_specLeaves cap
  | .mk none (some lf) _ _ _ _ _ =>
    show getAllLayersLF lf = specLeavesLF lf
    exact getAllLayersLF_eq_specLeaves lf
  | .mk none none nm ti dim bb rq => rfl
theorem getAllLayersLF_eq_specLeaves (lf : LayerField) :
    getAllLayersLF lf = specLeavesLF lf := by
  match lf with
  | .single l =>
    show getAllLayers l = specLeaves l
    exact getAllLayers_eq_specLeaves l
  | .array ls =>
    show getAllLayersList ls = specLeavesList ls
    exact getAllLayersList_eq_specLeaves ls
theorem getAllLayersList_eq_specLeaves (ls : List CapNode) :
    getAllLayersList ls = specLeavesList ls := by
  match ls with
  | [] => rfl
  | l :: ls =>
    show getAllLayers l ++ getAllLayersList ls = specLeaves l ++ specLeavesList ls
    rw [getAllLayers_eq_specLeaves l, getAllLayersList_eq_specLeaves ls]
end

mutual
theorem getAllLayers_mem_isLeaf (t : CapNode) :
    ∀ x ∈ getAllLayers t, isLeaf x = true := by
  match t with
  | .mk (some cap) _ _ _ _ _ _ =>
    intro x hx
    exact getAllLayers_mem_isLeaf cap x hx
  | .mk none (some lf) _ _ _ _ _ =>
    intro x hx
    exact getAllLayersLF_mem_isLeaf lf x hx
  | .mk none none nm ti dim bb rq =>
    intro x hx
    rcases List.mem_singleton.mp hx with rfl
    rfl
theorem getAllLayersLF_mem_isLeaf (lf : LayerField) :
    ∀ x ∈ getAllLayersLF lf, isLeaf x = true := by
  match lf with
  | .single l =>
    intro x hx
    exact getAllLayers_mem_isLeaf l x hx
  | .array ls =>
    intro x hx
    exact getAllLayersList_mem_isLeaf ls x hx
theorem getAllLayersList_mem_isLeaf (ls : List CapNode) :
    ∀ x ∈ getAllLayersList ls, isLeaf x = true := by
  match ls with
  | [] => intro x hx; simp [getAllLayersList] at hx
  | l :: ls =>
    intro x hx
    rcases List.mem_append.mp hx with hx | hx
    · exact getAllLayers_mem_isLeaf l x hx
    · exact getAllLayersList_mem_isLeaf ls x hx
end

theorem getAllLayers_of_isLeaf {t : CapNode} (h : isLeaf t = true) :
    getAllLayers t = [t] := by
  match t with
  | .mk c l nm ti dim bb rq =>
    cases c with
    | some cap => exact Bool.noConfusion h
    | none =>
      cases l with
      | some lf => exact Bool.noConfusion h
      | none => rfl

theorem getAllLayersList_of_leaves (ls : List CapNode)
    (h : ∀ l ∈ ls, isLeaf l = true) : getAllLayersList ls = ls := by
  induction ls with
  | nil => rfl
  | cons l ls ih =>
    show getAllLayers l ++ getAllLayersList ls = l :: ls
    rw [getAllLayers_of_isLeaf (h l (List.mem_cons_self l ls)),
      ih (fun x hx => h x (List.mem_cons_of_mem _ hx))]
    rfl

/-- C7: getAllLayers agrees with the flatten operation as worded by the
specification and returns exactly leaf nodes (no wrapper, no sublayers) in
left-to-right document order: it passes a nested capability through,
concatenates the flattened sublayers of a branch in order, and a branch
whose sublayers are all leaves flattens to that sublayer array unchanged. -/
theorem getAllLayers_flattens_to_leaves :
    (∀ t : CapNode, getAllLayers t = specLeaves t) ∧
    (∀ t : CapNode, ∀ x ∈ getAllLayers t, isLeaf x = true) ∧
    (∀ (ls : List CapNode) (nm ti : Option String)
      (dim : Option (List Dimension)) (bb : Option (List BBoxEntry))
      (rq : Option RequestSection), (∀ l ∈ ls, isLeaf l = true) →
      getAllLayers (.mk none (some (.array ls)) nm ti dim bb rq) = ls) := by
  refine ⟨getAllLayers_eq_specLeaves, getAllLayers_mem_isLeaf, ?_⟩
  intro ls nm ti dim bb rq h
  show getAllLayersList ls = ls
  exact getAllLayersList_of_leaves ls h

/-- C7, witness: the flattener on a concrete two-leaf branch agrees with the
specification wording, surfaces only leaves, and returns the leaf array of a
branch unchanged. -/
theorem getAllLayers_flattens_witness :
    getAllLayers (.mk none (some (.array [.mk none none (some "x") none none
        none none])) none none none none none) =
      specLeaves (.mk none (some (.array [.mk none none (some "x") none none
        none none])) none none none none none) ∧
    isLeaf (.mk none none (some "x") none none none none) = true ∧
    getAllLayers (.mk none (some (.array [.mk none none (some "x") none none
        none none])) none none none none none) =
      [.mk none none (some "x") none none none none] := by
  refine ⟨getAllLayers_flattens_to_leaves.1 _, ?_, ?_⟩
  · exact getAllLayers_flattens_to_leaves.2.1
      (.mk none (some (.array [.mk none none (some "x") none none none none]))
        none none none none none)
      (.mk none none (some "x") none none none none)
      (by exact List.Mem.head _)
  · exact getAllLayers_flattens_to_leaves.2.2 _ none none none none none
      (fun l hl => by rcases List.mem_singleton.mp hl with rfl; rfl)

/-- C9, amended: when a leaf declares several dimensions named time, each is
processed in order and later occurrences overwrite the record fields they
qualify for: after the dimension list ends with a fully qualifying time
dimension (nonempty default, units ISO8601), the default instant and the
times axis both come from that last dimension, not the first. -/
theorem processDim_last_time_dim_wins (now : Int) (ds : List Dimension)
    (d : Dimension) (layer : LayerRecord) (n : Nat) (s : String)
    (h1 : d.name = "time") (h2 : d.default = some s) (h3 : s ≠ "")
    (h4 : d.units = "ISO8601") :
    (((ds ++ [d]).foldl (processDim now) (layer, n)).1.time.map (·.tv) =
      some (jsTv now s.data)) ∧
    (((ds ++ [d]).foldl (processDim now) (layer, n)).1.times.map
      (List.map (·.tv)) = some (enumTvs now d.values.data 240 true)) := by
  rw [List.foldl_append]
  simp only [List.foldl_cons, List.foldl_nil]
  rcases hacc : ds.foldl (processDim now) (layer, n) with ⟨l0, n0⟩
  simp only [processDim, h1, h2, h4, eq_self_iff_true, if_true, toDate]
  rw [if_neg h3]
  constructor <;> simp [enumerate_map_tv]

/-- C9, counterexample: a leaf declaring two fully qualifying time
dimensions produces a record whose default instant and times axis come from
the second dimension, whose default differs from the first, refuting the
claim that the first occurrence is honored. -/
theorem layer_builder_last_time_dim_counterexample :
    ((buildLayerRecords 0 duplicateTimeCapability 0).1.map
      (fun r => r.time.map (·.tv))) =
      [some (dateParse "2020-02-01T00:00:00Z".data)] ∧
    ((buildLayerRecords 0 duplicateTimeCapability 0).1.map
      (fun r => r.times.map (List.map (·.tv)))) =
      [some [dateParse "2020-02-02T00:00:00Z".data]] ∧
    dateParse "2020-02-01T00:00:00Z".data ≠
      dateParse "2020-01-01T00:00:00Z".data := by
  refine ⟨by decide, by decide, by decide⟩

/-- C9, witness: the amended theorem applied to a dimension list made of two
fully qualifying time dimensions. -/
theorem processDim_last_time_dim_witness :
    ((([dimFirst] ++ [dimSecond]).foldl (processDim 0)
        (blankRecord, 0)).1.time.map (·.tv) =
      some (jsTv 0 "2020-02-01T00:00:00Z".data)) ∧
    ((([dimFirst] ++ [dimSecond]).foldl (processDim 0)
        (blankRecord, 0)).1.times.map (List.map (·.tv)) =
      some (enumTvs 0 dimSecond.values.data 240 true)) :=
  processDim_last_time_dim_wins 0 [dimFirst] dimSecond blankRecord 0
    "2020-02-01T00:00:00Z" (by decide) (by decide) (by decide) (by decide)

/-- C1, counterexample: enumerating the interval from 2020-01-01 to
2020-01-04 with period P1D and no limit yields five elements, not the four
distinct instants the claim demands: the start instant is generated by the
walk and then appended a second time, because the endpoint membership test
compares object references of freshly allocated Date objects. -/
theorem enumerate_P1D_interval_not_four :
    (enumerateAvailableTimes 0
      "2020-01-01T00:00:00Z/2020-01-04T00:00:00Z/P1D".data (-1) true
      0).1.length = 5 := by
  decide

/-- C1, amended: enumerating the interval from 2020-01-01 to 2020-01-04 with
period P1D, no limit and sorting returns the four daily instants in
ascending order with the start instant 2020-01-01 duplicated: once generated
by the backward walk and once appended as the start endpoint. -/
theorem enumerate_P1D_interval_values :
    (enumerateAvailableTimes 0
      "2020-01-01T00:00:00Z/2020-01-04T00:00:00Z/P1D".data (-1) true
      0).1.map (·.tv) =
      [dateParse "2020-01-01T00:00:00Z".data,
        dateParse "2020-01-01T00:00:00Z".data,
        dateParse "2020-01-02T00:00:00Z".data,
        dateParse "2020-01-03T00:00:00Z".data,
        dateParse "2020-01-04T00:00:00Z".data] := by
  decide

/-- C2, counterexample: on the two-leaf capability tree, the times axis of
the produced Pollen record is not the three claimed instants: the start
instant is duplicated. -/
theorem buildLayerRecords_pollen_not_three :
    ((buildLayerRecords 0 pollenCapability 0).1.map
      (fun r => r.times.map (List.map (·.tv)))) ≠
      [some [dateParse "2021-06-01T00:00:00Z".data,
        dateParse "2021-06-02T00:00:00Z".data,
        dateParse "2021-06-03T00:00:00Z".data]] := by
  decide

/-- C2, amended: on a capability tree with one branch holding the leaves
background and Pollen, the layer-record builder produces exactly one record,
named Pollen, whose times axis is the three daily instants in ascending
order with 2021-06-01 duplicated (walk step and start endpoint). -/
theorem buildLayerRecords_pollen_record :
    ((buildLayerRecords 0 pollenCapability 0).1.map (·.name)) =
      [some "Pollen"] ∧
    ((buildLayerRecords 0 pollenCapability 0).1.map
      (fun r => r.times.map (List.map (·.tv)))) =
      [some [dateParse "2021-06-01T00:00:00Z".data,
        dateParse "2021-06-01T00:00:00Z".data,
        dateParse "2021-06-02T00:00:00Z".data,
        dateParse "2021-06-03T00:00:00Z".data]] := by
  refine ⟨by decide, by decide⟩

/-- C6, witness: the swap theorem applied to the daily interval between
2020-01-01 and 2020-01-03 written in both endpoint orders. -/
theorem enumerate_swap_witness :
    ((enumerateAvailableTimes 0 ("2020-01-01T00:00:00Z".data ++ '/' ::
        ("2020-01-03T00:00:00Z".data ++ '/' :: "P1D".data)) (-1) true
        0).1.map (·.tv)).Perm
      ((enumerateAvailableTimes 0 ("2020-01-03T00:00:00Z".data ++ '/' ::
        ("2020-01-01T00:00:00Z".data ++ '/' :: "P1D".data)) (-1) true
        0).1.map (·.tv)) :=
  enumerateAvailableTimes_swap_endpoints 0 (-1) true 0 _ _ _ (by decide)
    (by decide) (by decide) (by decide) (by decide)

/-- C8, witness: the length-bound theorem applied to the daily interval
between 2020-01-01 and 2020-01-03 with limit 1. -/
theorem enumerate_length_le_witness :
    (enumerateAvailableTimes 0 ("2020-01-01T00:00:00Z".data ++ '/' ::
        ("2020-01-03T00:00:00Z".data ++ '/' :: "P1D".data)) 1 true
        0).1.length ≤ (1 : Int).toNat + 2 :=
  enumerateAvailableTimes_length_le 0 true 0 _ _ _ 1 (by decide) (by decide)
    (by decide) (by decide) (by decide) (by decide)

/-- C10, witness: three comma-joined single instants with limit 2 yield
three instants, strictly more than the limit. -/
theorem enumerate_singles_witness :
    (enumerateAvailableTimes 0 (joinComma ["2020-01-01T00:00:00Z".data,
        "2020-01-02T00:00:00Z".data, "2020-01-03T00:00:00Z".data]) 2 true
        0).1.length = 3 ∧ (2 : Int) < 3 :=
  ⟨enumerateAvailableTimes_singles_ignore_limit 0 2 true 0
      ["2020-01-01T00:00:00Z".data, "2020-01-02T00:00:00Z".data,
        "2020-01-03T00:00:00Z".data] (by decide) (by decide),
    by decide⟩
